import Mathlib

/-!
Shallow embedding of the aggregation/transform engine of
`src/plugins/npm-probe.js` (the npm-probe BigPipe plugin): the moving-average
transform, the per-day interval histogram (`timeUnit`), the per-day publish
percentage (`percentage`), and the day-grouping combinator (`groupPerDay`),
together with theorems checking the natural-language specification against
this code.

JavaScript numbers are modelled as exact rationals; `NaN` (the result of
arithmetic on `undefined`) is modelled by `none` in `Option ℚ`.  The external
configuration consumed by the plugin (the `pagelet.intervals` threshold table,
the `pagelet.day` constant, the publish probe interval, and the wall clock) is
collected in an explicit `Env` record, mirroring the module-level values the
source closes over.
-/

namespace NpmProbe

/-- A JavaScript number as used by the transforms: `some q` is a finite
number, `none` models `NaN` (arithmetic on a missing/`undefined` field). -/
abbrev JsNum := Option ℚ

/-- JavaScript division `a / d` where `a` may be `NaN`.  (All divisors used by
the source are nonzero constants, so the `q / 0 = 0` convention of `ℚ` is
never exercised by the theorems below.) -/
def jsDiv (a : JsNum) (d : ℚ) : JsNum := a.map (fun x => x / d)

/-- JavaScript addition: `NaN` absorbs. -/
def jsAdd : JsNum → JsNum → JsNum
  | some x, some y => some (x + y)
  | _, _ => none

/-- JavaScript truthiness of a number: `0` and `NaN` are falsy. -/
def jsTruthy : JsNum → Bool
  | none => false
  | some q => q != 0

/-- The `result.values` object built by the moving-average `map` callback:
an insertion-ordered association list from metric name to number. -/
abbrev Values := List (String × JsNum)

/-- Read `values[key]`; `none` means the property is absent (`undefined`). -/
def getVal (vs : Values) (key : String) : Option JsNum :=
  (vs.find? (fun p => p.1 == key)).map (fun p => p.2)

/-- Assign `values[key] = v`: update in place if present, else append
(JavaScript object insertion order). -/
def setVal : Values → String → JsNum → Values
  | [], key, v => [(key, v)]
  | p :: t, key, v => if p.1 == key then (key, v) :: t else p :: setVal t key v

/-- One `ping` probe sample: `start` timestamp (epoch ms) and the numeric
metrics of its `results` object (an empty list models an empty or missing
`results`, over which `for..in` performs no iterations). -/
structure PingProbe where
  start : ℚ
  results : List (String × ℚ)
deriving DecidableEq

/-- Read `results[key]` of a sample; `undefined` (missing key) is `none`,
which subsequent arithmetic turns into `NaN`. -/
def getMetric (rs : List (String × ℚ)) (key : String) : JsNum :=
  (rs.find? (fun p => p.1 == key)).map (fun p => p.2)

/-- An aggregate point `{t, values}` produced by the moving average. -/
structure MAPoint where
  t : ℚ
  values : Values
deriving DecidableEq

/-- The indices visited by `while (++k < i)` starting from `k = i - n`:
the integers `i - n + 1, …, i - 1` (`n - 1` of them). -/
def kList (i n : ℕ) : List ℤ :=
  (List.range (n - 1)).map (fun j : ℕ => (i : ℤ) - (n : ℤ) + 1 + (j : ℤ))

/-- The subscript `k > 0 ? k : 0` used to read `original[...]`. -/
def clampIdx (k : ℤ) : ℕ := if 0 < k then k.toNat else 0

/-- `original[j].results` (every access performed by the source has
`j < original.length`, so the `[]` default is never exercised there). -/
def resultsAt (data : List PingProbe) (j : ℕ) : List (String × ℚ) :=
  (data[j]?.map PingProbe.results).getD []

/-- The update applied to `result.values[key]` by one iteration of the window
loop of `movingAverage`: re-seed with `probe.results[key] / n` if the current
value is absent or falsy (the `||`), then add `original[clamp k].results[key] / n`. -/
def maKeyStep (data : List PingProbe) (probe : PingProbe) (n : ℕ) (k : ℤ)
    (key : String) (cur : Option JsNum) : JsNum :=
  let c : JsNum :=
    match cur with
    | some v => if jsTruthy v then v else jsDiv (getMetric probe.results key) (n : ℚ)
    | none => jsDiv (getMetric probe.results key) (n : ℚ)
  jsAdd c (jsDiv (getMetric (resultsAt data (clampIdx k)) key) (n : ℚ))

/-- The body of `for (var data in probe.results)` for one key. -/
def maStep (data : List PingProbe) (probe : PingProbe) (n : ℕ) (k : ℤ)
    (vs : Values) (key : String) : Values :=
  setVal vs key (maKeyStep data probe n k key (getVal vs key))

/-- The `values` object produced for the sample at index `i`: the
`while (++k < i)` loop, each iteration running the `for..in` over the
current sample's own `results` keys. -/
def maValues (data : List PingProbe) (i : ℕ) (probe : PingProbe) (n : ℕ) : Values :=
  (kList i n).foldl
    (fun vs k => probe.results.foldl (fun vs p => maStep data probe n k vs p.1) vs) []

/-- `movingAverage(n)` of `src/plugins/npm-probe.js`: `n = n || 5`, then map
every sample to `{t: probe.start, values}`. -/
def movingAverage (n₀ : ℕ) (data : List PingProbe) : List MAPoint :=
  let n := if n₀ = 0 then 5 else n₀
  data.enum.map (fun q => { t := q.2.start, values := maValues data q.1 q.2 n })

/-- The `lag` object of a `delta` probe's results. -/
structure Lag where
  mean : ℚ
deriving DecidableEq

/-- The `results` object of a `delta` probe: `lag` and `modules` may each be
absent (`undefined`). -/
structure DeltaResults where
  lag : Option Lag
  modules : Option (List String)
deriving DecidableEq

/-- A `delta` probe sample; `results = none` models a sample whose `results`
field is missing entirely. -/
structure DeltaProbe where
  start : ℚ
  results : Option DeltaResults
deriving DecidableEq

/-- One per-day interval bucket record
`{ modules: [...], type: key, days: …, n: … }`. -/
structure Bucket where
  type : String
  days : ℚ
  n : ℕ
  modules : List String
deriving DecidableEq

/-- The configuration and ambient state the plugin closes over:
`pagelet.intervals` as the ordered `(label, threshold)` list given by
`Object.keys` insertion order, the `pagelet.day` magnitude,
`Collector.probes.publish.interval`, the wall-clock value
`new Date().setHours(0,0,0,0)` observed by `percentage`, and the local
midnight truncation `t ↦ new Date(t).setHours(0,0,0,0)` as an abstract
function of the timestamp (the timezone is fixed). -/
structure Env where
  intervals : List (String × ℚ)
  day : ℚ
  publishInterval : ℚ
  today : ℚ
  midnight : ℚ → ℚ

/-- Label of the `day` entry of `pagelet.intervals`. -/
def dayLabel : String := "day"

/-- `pagelet.intervals.day`, read from the configured interval table (`getD 0`
stands for the absent-property case, which no concrete configuration below
exercises). -/
def intervalsDayVal (env : Env) : ℚ :=
  ((env.intervals.find? (fun p => p.1 == dayLabel)).map (fun p => p.2)).getD 0

/-- Replace the element at index `i` by `f` applied to it (out-of-range is a
no-op; the source always indexes within bounds). -/
def updateAt {α : Type} (f : α → α) : ℕ → List α → List α
  | _, [] => []
  | 0, b :: t => f b :: t
  | i + 1, b :: t => b :: updateAt f i t

/-- JavaScript falsiness of the `interval` variable (`undefined` or the number
`0`): this is the test performed by both `if (interval) return;` and
`if (!interval) …`. -/
def jsFalsyIdx : Option ℕ → Bool
  | none => true
  | some 0 => true
  | some _ => false

/-- One iteration of the `position.forEach` loop of `timeUnit`, at entry
`p = (i, (key, threshold))`.  When `probe.results && probe.results.lag` holds
it adds `lag.mean / pagelet.day` to `memo[i].days` (the local `days` variable
is never assigned, so `days || …` always evaluates its right operand), then
stops if `interval` is truthy, else records `i` when
`lag.mean <= intervals[key]`. -/
def timeUnitStep (env : Env) (res : Option DeltaResults)
    (st : List Bucket × Option ℕ) (p : ℕ × String × ℚ) : List Bucket × Option ℕ :=
  match res.bind DeltaResults.lag with
  | none => st
  | some lag =>
    let memo := updateAt (fun b => { b with days := b.days + lag.mean / env.day }) p.1 st.1
    if jsFalsyIdx st.2 = false then (memo, st.2)
    else if lag.mean ≤ p.2.2 then (memo, some p.1)
    else (memo, st.2)

/-- `timeUnit(memo, probe)` of `src/plugins/npm-probe.js`: run the `forEach`
over the interval table, default a falsy `interval` to the last index, bump
that bucket's `n`, and append the not-yet-present (and non-empty — the
`filter(Boolean)` — ) module names to that bucket.  `none` models the
`TypeError` thrown by `probe.results.modules` when `results` is missing. -/
def timeUnit (env : Env) (memo : List Bucket) (probe : DeltaProbe) :
    Option (List Bucket) :=
  let st := List.foldl (timeUnitStep env probe.results) (memo, none) env.intervals.enum
  let idx := if jsFalsyIdx st.2 then env.intervals.length - 1 else st.2.getD 0
  let memo1 := updateAt (fun b => { b with n := b.n + 1 }) idx st.1
  match probe.results with
  | none => none
  | some r =>
    match r.modules with
    | none => some memo1
    | some mods =>
      let bmods := (memo1[idx]?.map Bucket.modules).getD []
      let app := mods.filter (fun m => !(bmods.contains m) && !(m == ""))
      some (updateAt (fun b => { b with modules := b.modules ++ app }) idx memo1)

/-- `clone(input) = JSON.parse(JSON.stringify(input))`: on the
JSON-representable records handled here (strings, exact numbers, arrays,
plain objects) the round-trip reproduces the value, and in this pure
embedding sharing is unobservable, so the deep copy is the value itself. -/
def clone {α : Type} (x : α) : α := x

/-- Read the day-keyed accumulator object `memo[d]`. -/
def lookupDay {γ : Type} (memo : List (ℚ × γ)) (d : ℚ) : Option γ :=
  (memo.find? (fun p => p.1 == d)).map (fun p => p.2)

/-- Write `memo[d] = v`, preserving JavaScript property insertion order
(the day keys, ≈10^12 epoch milliseconds, are beyond the array-index range,
so `Object.keys` enumerates them in insertion order). -/
def insertDay {γ : Type} : List (ℚ × γ) → ℚ → γ → List (ℚ × γ)
  | [], d, v => [(d, v)]
  | p :: t, d, v => if p.1 == d then (d, v) :: t else p :: insertDay t d v

/-- The `data.reduce` of `groupPerDay`: for each probe, seed the day's state
with `clone(base)` on first encounter, then run the categorizer; a categorizer
exception (`none`) propagates out of the whole reduce. -/
def buildMemo {π γ : Type} (cat : γ → π → Option γ) (base : γ)
    (start : π → ℚ) (mid : ℚ → ℚ) (data : List π) : Option (List (ℚ × γ)) :=
  data.foldlM
    (fun memo probe =>
      (cat ((lookupDay memo (mid (start probe))).getD (clone base)) probe).map
        (fun st => insertDay memo (mid (start probe)) st))
    []

/-- An aggregate point `{t: dayKey, values: unit}` of a day-grouped
transform. -/
structure DayPoint (β : Type) where
  t : ℚ
  values : β
deriving DecidableEq

/-- `groupPerDay(categorize, base)` of `src/plugins/npm-probe.js`: group the
samples by local midnight of `probe.start`, fold each day through the
categorizer from a fresh `clone(base)`, then flatten day by day (insertion
order), one point per unit of the day's state array. -/
def groupPerDay {π β : Type} (cat : List β → π → Option (List β)) (base : List β)
    (start : π → ℚ) (mid : ℚ → ℚ) (data : List π) : Option (List (DayPoint β)) :=
  (buildMemo cat base start mid data).map
    (fun m => m.foldl (fun stack p => stack ++ p.2.map (fun u => DayPoint.mk p.1 u)) [])

/-- The `results` object of a `publish` probe: the `published` flag, already
viewed through the `+…` coercion to `0`/`1`. -/
structure PublishResults where
  published : Bool
deriving DecidableEq

/-- A `publish` probe sample; `results = none` models a missing `results`
field (reading `.published` from it throws). -/
structure PublishProbe where
  start : ℚ
  results : Option PublishResults
deriving DecidableEq

/-- One per-day publish state slot
`{ type, percentage, total, n, lower }`.  `percentage`/`lower` are `Option ℤ`:
`none` models the non-finite `Math.round(n / 0 * 100)` produced when the
recorded `total` is still `0`. -/
structure Slot where
  type : String
  percentage : Option ℤ
  total : ℤ
  n : ℕ
  lower : Option ℤ
deriving DecidableEq

/-- `Math.round` on a finite value: round half toward positive infinity. -/
def jsRound (q : ℚ) : ℤ := ⌊q + 1 / 2⌋

/-- `Math.round(n / total * 100)` as computed by `percentage`; `none` is the
non-finite result of dividing by a zero `total`. -/
def pctOf (n : ℕ) (total : ℤ) : Option ℤ :=
  if total = 0 then none else some (jsRound ((n : ℚ) / (total : ℚ) * 100))

/-- `percentage(memo, probe)` of `src/plugins/npm-probe.js`.  `day` is the
wall-clock midnight `env.today`; `diff` falls back to `pagelet.intervals.day`
for samples at or before midnight; `done = Math.floor(diff / interval)`;
`state = +probe.results.published` selects the slot; a `done` above the
selected slot's recorded `total` overwrites **both** slots' totals; the slot's
`n` and `percentage` are updated and the failure slot's `lower` is set to the
success slot's (fresh) percentage.  `none` models the `TypeError` on a probe
without `results` (and the out-of-shape case of a state array shorter than
two, which the source never builds). -/
def percentage (env : Env) (memo : List Slot) (probe : PublishProbe) :
    Option (List Slot) :=
  match probe.results with
  | none => none
  | some res =>
    match memo with
    | s0 :: s1 :: rest =>
      let diff : ℚ :=
        if env.today < probe.start then probe.start - env.today else intervalsDayVal env
      let done : ℤ := ⌊diff / env.publishInterval⌋
      let hitTotal := if res.published then s1.total else s0.total
      let t0 := if done > hitTotal then { s0 with total := done } else s0
      let t1 := if done > hitTotal then { s1 with total := done } else s1
      let u0 :=
        if res.published then t0
        else { t0 with n := t0.n + 1, percentage := pctOf (t0.n + 1) t0.total }
      let u1 :=
        if res.published then { t1 with n := t1.n + 1, percentage := pctOf (t1.n + 1) t1.total }
        else t1
      some ({ u0 with lower := u1.percentage } :: u1 :: rest)
    | _ => none

/-- Labels of the two publish state slots. -/
def failureLabel : String := "failure"

/-- Label of the success slot. -/
def successLabel : String := "success"

/-- The empty-day template of the publish transform:
`[{type:'failure', percentage:0, total:0, n:0, lower:0},
  {type:'success', …}]`. -/
def publishBase : List Slot :=
  [⟨failureLabel, some 0, 0, 0, some 0⟩, ⟨successLabel, some 0, 0, 0, some 0⟩]

/-- The empty-day template of the delta transform, one bucket per configured
interval (`transform.delta`'s `Object.keys(pagelet.intervals).map(...)`). -/
def deltaBase (env : Env) : List Bucket :=
  env.intervals.map (fun p => ⟨p.1, 0, 0, []⟩)

/-- `transform.ping = movingAverage(3)`.  The environment parameter records
that the closure is built from the ambient module state; the definition does
not consult it. -/
def transformPing (_env : Env) (data : List PingProbe) : List MAPoint :=
  movingAverage 3 data

/-- `transform.delta = groupPerDay(timeUnit, …)`. -/
def transformDelta (env : Env) (data : List DeltaProbe) :
    Option (List (DayPoint Bucket)) :=
  groupPerDay (timeUnit env) (deltaBase env) DeltaProbe.start env.midnight data

/-- `transform.publish = groupPerDay(percentage, …)`. -/
def transformPublish (env : Env) (data : List PublishProbe) :
    Option (List (DayPoint Slot)) :=
  groupPerDay (percentage env) publishBase PublishProbe.start env.midnight data

/-- Metric key used by the concrete ping scenarios. -/
def latencyKey : String := "latency"

/-- The three-sample ping sequence of the spec's scenario:
`start = [1000, 2000, 3000]`, `latency = [10, 20, 30]`. -/
def data5 : List PingProbe :=
  [⟨1000, [(latencyKey, 10)]⟩, ⟨2000, [(latencyKey, 20)]⟩, ⟨3000, [(latencyKey, 30)]⟩]

/-- The latency values of `data5` as a function of the sample index. -/
def f5 : ℕ → ℚ := fun j => if j = 0 then 10 else if j = 1 then 20 else 30

/-- Label of the first interval of the concrete two-interval configuration. -/
def hourLabel : String := "hour"

/-- A concrete configuration: two ascending intervals
`hour ↦ 60`, `day ↦ 1440`, `pagelet.day = 1440`, publish interval `1`,
current midnight `0`, and a constant local-midnight function. -/
def env2 : Env :=
  ⟨[(hourLabel, 60), (dayLabel, 1440)], 1440, 1, 0, fun _ => 0⟩

/-- The empty-day template `delta` state for `env2`
(one `{modules: [], type: key, days: 0, n: 0}` record per interval). -/
def base2 : List Bucket :=
  [⟨hourLabel, 0, 0, []⟩, ⟨dayLabel, 0, 0, []⟩]

/-- A `delta` sample whose `lag.mean = 30` lies below the smallest
threshold (`60`). -/
def probeSmallLag : DeltaProbe := ⟨100, some ⟨some ⟨30⟩, none⟩⟩

/-- A `delta` sample whose `results` object is present but has no `lag`
and no `modules`. -/
def probeNoLag : DeltaProbe := ⟨100, some ⟨none, none⟩⟩

/-- Module name used by the duplicate-module scenario. -/
def moduleA : String := "a"

/-- A `delta` sample without `lag` whose `modules` array holds the same name
twice. -/
def probeDupModules : DeltaProbe := ⟨100, some ⟨none, some [moduleA, moduleA]⟩⟩

/-- Publish configuration for the over-100% scenario: probe interval `2`,
current midnight `0`. -/
def env7 : Env := ⟨[(dayLabel, 1440)], 1440, 2, 0, fun _ => 0⟩

/-- A successful publish sample from later the same day (`start = 2`,
so `done = ⌊2 / 2⌋ = 1`). -/
def probePub : PublishProbe := ⟨2, some ⟨true⟩⟩

/-- Publish configuration differing from `env7` only in the wall-clock
midnight (`today = 10`, so `probePub.start = 2` is "before today" and the
`pagelet.intervals.day = 1440` fallback is taken). -/
def env7b : Env := ⟨[(dayLabel, 1440)], 1440, 2, 10, fun _ => 0⟩

/-- The per-bucket `days` increment applied by the `forEach` of `timeUnit`
when a lag is present. -/
def addLag (env : Env) (lag : Lag) : Bucket → Bucket :=
  fun b => { b with days := b.days + lag.mean / env.day }

/-- The `n` increment applied to the classified bucket. -/
def bumpN : Bucket → Bucket := fun b => { b with n := b.n + 1 }

/-- The evolution of the `interval` variable across one `forEach` iteration
(the pure projection of `timeUnitStep`). -/
def istep (lag : Lag) (iv : Option ℕ) (p : ℕ × String × ℚ) : Option ℕ :=
  if jsFalsyIdx iv = false then iv
  else if lag.mean ≤ p.2.2 then some p.1
  else iv

/-- The modules list stored at index `j` of a bucket array. -/
def modsAt (memo : List Bucket) (j : ℕ) : Option (List String) :=
  memo[j]?.map Bucket.modules

/-- Second module name used in the dedup witness. -/
def moduleB : String := "b"

/-- A `delta` sample carrying two distinct module names. -/
def probeModsAB : DeltaProbe := ⟨100, some ⟨none, some [moduleA, moduleB]⟩⟩

/-- The module names actually pushed onto the classified bucket by one
`timeUnit` call: each of the sample's `modules` maps to itself when not yet
present in the bucket's current module set (the `!~indexOf` test), and
`filter(Boolean)` drops the `undefined`s of already-present names together
with empty strings; an absent (non-array) `modules` field contributes
nothing. -/
def modulesAppend : Option (List String) → List String → List String
  | none, _ => []
  | some mods, bmods => mods.filter (fun m => !(bmods.contains m) && !(m == ""))

/-- A `delta` sample carrying both a lag and a modules array. -/
def probeLagMods : DeltaProbe := ⟨100, some ⟨some ⟨30⟩, some [moduleA]⟩⟩

/-- A `delta` sample whose `results` field is missing entirely. -/
def probeNoResults : DeltaProbe := ⟨5, none⟩

/-! ## Theorems -/

theorem updateAt_getElem? {α : Type} (f : α → α) (i j : ℕ) (l : List α) :
    (updateAt f i l)[j]? = if j = i then l[j]?.map f else l[j]? := by
  induction l generalizing i j with
  | nil => simp [updateAt]
  | cons b t ih =>
    cases i with
    | zero => cases j <;> simp [updateAt]
    | succ i => cases j <;> simp [updateAt, ih]

theorem updateAt_length {α : Type} (f : α → α) (i : ℕ) (l : List α) :
    (updateAt f i l).length = l.length := by
  induction l generalizing i with
  | nil => cases i <;> rfl
  | cons b t ih => cases i <;> simp [updateAt, ih]

theorem timeUnitStep_eq (env : Env) (res : Option DeltaResults) (lag : Lag)
    (hres : res.bind DeltaResults.lag = some lag)
    (st : List Bucket × Option ℕ) (p : ℕ × String × ℚ) :
    timeUnitStep env res st p =
      (updateAt (addLag env lag) p.1 st.1, istep lag st.2 p) := by
  simp only [timeUnitStep, hres, istep, addLag]
  split
  · rfl
  · split <;> rfl

theorem timeUnit_fold_split (env : Env) (res : Option DeltaResults) (lag : Lag)
    (hres : res.bind DeltaResults.lag = some lag) (l : List (ℕ × String × ℚ)) :
    ∀ memo iv, List.foldl (timeUnitStep env res) (memo, iv) l =
      (List.foldl (fun m p => updateAt (addLag env lag) p.1 m) memo l,
        List.foldl (istep lag) iv l) := by
  induction l with
  | nil => intro memo iv; rfl
  | cons p t ih =>
    intro memo iv
    simp only [List.foldl_cons, timeUnitStep_eq env res lag hres]
    exact ih _ _

theorem foldl_updateAt_not_mem {α β : Type} (f : α → α) (l : List (ℕ × β))
    (memo : List α) (j : ℕ) (hj : ∀ p ∈ l, p.1 ≠ j) :
    (List.foldl (fun m p => updateAt f p.1 m) memo l)[j]? = memo[j]? := by
  induction l generalizing memo with
  | nil => rfl
  | cons p t ih =>
    simp only [List.foldl_cons]
    rw [ih _ (fun q hq => hj q (List.mem_cons_of_mem p hq)), updateAt_getElem?]
    simp [Ne.symm (hj p (List.mem_cons_self p t))]

theorem foldl_updateAt_once {α β : Type} (f : α → α) (l : List (ℕ × β))
    (memo : List α) (j : ℕ) (hnd : (l.map Prod.fst).Nodup)
    (hjin : j ∈ l.map Prod.fst) :
    (List.foldl (fun m p => updateAt f p.1 m) memo l)[j]? = memo[j]?.map f := by
  induction l generalizing memo with
  | nil => simp at hjin
  | cons p t ih =>
    simp only [List.map_cons, List.nodup_cons] at hnd
    simp only [List.foldl_cons]
    rcases List.mem_cons.mp hjin with hj | hj
    · have hnotin : ∀ q ∈ t, q.1 ≠ j := by
        intro q hq hq1
        exact hnd.1 (hj ▸ hq1 ▸ List.mem_map_of_mem Prod.fst hq)
      rw [foldl_updateAt_not_mem f t _ j hnotin, updateAt_getElem?]
      simp [hj]
    · have hne : j ≠ p.1 := fun h => hnd.1 (h ▸ hj)
      rw [ih _ hnd.2 hj, updateAt_getElem?]
      simp [hne]

theorem mem_enum_fst_lt {α : Type} (l : List α) (p : ℕ × α) (hp : p ∈ l.enum) :
    p.1 < l.length :=
  (List.getElem?_eq_some.mp (List.mem_enum_iff_getElem?.mp hp)).1

theorem mem_enum_fst_of_lt {α : Type} (l : List α) (j : ℕ) (hj : j < l.length) :
    j ∈ l.enum.map Prod.fst := by
  have : (j, l[j]) ∈ l.enum := by
    rw [List.mem_enum_iff_getElem?]
    exact List.getElem?_eq_getElem hj
  exact List.mem_map_of_mem Prod.fst this

theorem foldl_updateAt_enum {α : Type} (f : α → α) (ivs : List (String × ℚ))
    (memo : List α) (hlen : memo.length = ivs.length) :
    List.foldl (fun m p => updateAt f p.1 m) memo ivs.enum = memo.map f := by
  apply List.ext_getElem?
  intro j
  by_cases hj : j < ivs.length
  · rw [foldl_updateAt_once f ivs.enum memo j (List.nodup_enum_map_fst ivs)
      (mem_enum_fst_of_lt ivs j hj), List.getElem?_map]
  · have h1 : memo[j]? = none := List.getElem?_eq_none (by omega)
    have h2 : (memo.map f)[j]? = none := List.getElem?_eq_none (by simp; omega)
    rw [foldl_updateAt_not_mem f ivs.enum memo j
      (fun p hp h => hj (h ▸ mem_enum_fst_lt ivs p hp)), h1, h2]

theorem istep_fold_bound (lag : Lag) (N : ℕ) (l : List (ℕ × String × ℚ))
    (hl : ∀ p ∈ l, p.1 < N) :
    ∀ iv : Option ℕ, (iv = none ∨ ∃ j, j < N ∧ iv = some j) →
      List.foldl (istep lag) iv l = none ∨
        ∃ j, j < N ∧ List.foldl (istep lag) iv l = some j := by
  induction l with
  | nil => intro iv h; simpa using h
  | cons p t ih =>
    intro iv h
    simp only [List.foldl_cons]
    apply ih (fun q hq => hl q (List.mem_cons_of_mem p hq))
    unfold istep
    split
    · exact h
    · split
      · exact Or.inr ⟨p.1, hl p (List.mem_cons_self p t), rfl⟩
      · exact h

/-- C1: checked against the code.  The spec says a `lag.mean` at or below the
first (smallest) threshold is assigned interval index `0`; the code assigns it
index `1`.  `probeSmallLag` has `lag.mean = 30`, at or below the first
threshold `60` of `env2.intervals`, yet the bucket whose `n` is incremented is
the one at index `1`: inside the `forEach`, `if (interval) return` does not
stop the scan when `interval` is the falsy index `0`, so the next (larger)
interval overwrites it — contradicting the code's own comment "Current found
interval is correct, stop processing before updating again". -/
theorem timeUnit_small_lag_goes_to_second_interval :
    timeUnit env2 base2 probeSmallLag =
        some [⟨hourLabel, 1 / 48, 0, []⟩, ⟨dayLabel, 1 / 48, 1, []⟩] ∧
      env2.intervals = [(hourLabel, 60), (dayLabel, 1440)] ∧
      probeSmallLag.results = some ⟨some ⟨30⟩, none⟩ ∧ (30 : ℚ) ≤ 60 := by
  refine ⟨?_, rfl, rfl, by norm_num⟩
  norm_num [timeUnit, timeUnitStep, env2, base2, probeSmallLag, updateAt, jsFalsyIdx,
    List.enum, List.enumFrom]

/-- C4: confirmed.  `movingAverage(n)` emits exactly one point per input
sample, and the `i`-th point's `t` is the `i`-th sample's `start`. -/
theorem movingAverage_length_and_timestamps (n : ℕ) (data : List PingProbe) :
    (movingAverage n data).length = data.length ∧
      ∀ i : ℕ, ((movingAverage n data).get? i).map MAPoint.t =
        (data.get? i).map PingProbe.start := by
  constructor
  · simp [movingAverage]
  · intro i
    simp only [movingAverage, List.get?_map, List.get?_enum]
    cases data.get? i <;> simp

/-- C10: confirmed.  With a window argument of `1` the `while (++k < i)` loop
of `movingAverage` performs zero iterations, so every output point carries an
empty `values` object. -/
theorem movingAverage_one_empty_values (data : List PingProbe) :
    movingAverage 1 data = data.map (fun p => MAPoint.mk p.start []) := by
  apply List.ext_get?_iff.mpr
  intro i
  simp only [movingAverage, List.get?_map, List.get?_enum]
  cases data.get? i <;> simp [maValues, kList]

/-- C6, counterexample: the publish transform is not a pure function of its
input snapshot.  `env7` and `env7b` agree on every configured value — interval
table, day magnitude, publish probe interval, midnight truncation — and
differ only in the wall-clock day `new Date().setHours(0,0,0,0)` read by
`percentage`; on the identical one-sample snapshot the two invocations
produce different output. -/
theorem transformPublish_wall_clock_dependent :
    env7.intervals = env7b.intervals ∧ env7.day = env7b.day ∧
      env7.publishInterval = env7b.publishInterval ∧
      env7.midnight = env7b.midnight ∧
      transformPublish env7 [probePub] ≠ transformPublish env7b [probePub] := by
  refine ⟨rfl, rfl, rfl, rfl, ?_⟩
  have h1 : transformPublish env7 [probePub] =
      some [⟨0, ⟨failureLabel, some 0, 1, 0, some 100⟩⟩,
        ⟨0, ⟨successLabel, some 100, 1, 1, some 0⟩⟩] := by
    norm_num [transformPublish, groupPerDay, buildMemo, percentage, env7, publishBase,
      probePub, pctOf, jsRound, intervalsDayVal, lookupDay, insertDay, clone, List.foldlM]
  have h2 : transformPublish env7b [probePub] =
      some [⟨0, ⟨failureLabel, some 0, 720, 0, some 0⟩⟩,
        ⟨0, ⟨successLabel, some 0, 720, 1, some 0⟩⟩] := by
    norm_num [transformPublish, groupPerDay, buildMemo, percentage, env7b, publishBase,
      probePub, pctOf, jsRound, intervalsDayVal, lookupDay, insertDay, clone, List.foldlM]
  rw [h1, h2]
  simp

/-- C6, amended: the ping and delta transforms are pure functions of the
snapshot and the static configuration — two environments agreeing on the
interval table, the day magnitude and the midnight truncation (but possibly
observed at different wall-clock times) yield identical transforms. -/
theorem transform_ping_delta_time_independent (e₁ e₂ : Env)
    (hi : e₁.intervals = e₂.intervals) (hd : e₁.day = e₂.day)
    (hm : e₁.midnight = e₂.midnight) :
    transformPing e₁ = transformPing e₂ ∧ transformDelta e₁ = transformDelta e₂ := by
  obtain ⟨i₁, d₁, p₁, t₁, m₁⟩ := e₁
  obtain ⟨i₂, d₂, p₂, t₂, m₂⟩ := e₂
  simp only at hi hd hm
  subst hi
  subst hd
  subst hm
  exact ⟨rfl, rfl⟩

/-- C6, witness for the amended theorem, at the two concrete environments
that differ only in wall-clock time. -/
theorem transform_ping_delta_time_independent_witness :
    transformPing env7 = transformPing env7b ∧
      transformDelta env7 = transformDelta env7b :=
  transform_ping_delta_time_independent env7 env7b rfl rfl rfl

/-- C7, counterexample: publish percentages are not confined to `[0, 100]`.
Two successful publish samples of the same day with a derived `total` of `1`
drive the success slot's percentage to `200` (the second sample's `done` does
not exceed the recorded `total`, so `total` stays `1` while `n` reaches `2`). -/
theorem percentage_exceeds_hundred :
    (percentage env7 publishBase probePub).bind
        (fun m => percentage env7 m probePub) =
      some [⟨failureLabel, some 0, 1, 0, some 200⟩,
        ⟨successLabel, some 200, 1, 2, some 0⟩] ∧
      ¬ (200 : ℤ) ≤ 100 := by
  constructor
  · norm_num [percentage, env7, publishBase, probePub, pctOf, jsRound, intervalsDayVal]
  · norm_num

theorem foldl_congr_const {α β : Type} (f : α → β → α) (l : List β) (init : α)
    (h : ∀ st p, f st p = st) : List.foldl f init l = init := by
  induction l with
  | nil => rfl
  | cons p t ih => rw [List.foldl_cons, h init p]; exact ih

/-- C2, counterexample: one sample with a lag modifies more than its
classified bucket.  For `probeSmallLag` the classified bucket is index `1`
(its `n` becomes `1`), yet the bucket at index `0` also changes: its `days`
moves from `0` to `30 / 1440 = 1/48`, because the `forEach` adds
`lag.mean / pagelet.day` to `memo[i].days` for **every** interval index `i`
(the local `days` variable is never assigned, so `days || …` always computes
the increment). -/
theorem timeUnit_modifies_unclassified_bucket :
    timeUnit env2 base2 probeSmallLag =
        some [⟨hourLabel, 1 / 48, 0, []⟩, ⟨dayLabel, 1 / 48, 1, []⟩] ∧
      base2[0]? = some ⟨hourLabel, 0, 0, []⟩ ∧
      (⟨hourLabel, 1 / 48, 0, []⟩ : Bucket) ≠ ⟨hourLabel, 0, 0, []⟩ := by
  refine ⟨?_, rfl, ?_⟩
  · norm_num [timeUnit, timeUnitStep, env2, base2, probeSmallLag, updateAt, jsFalsyIdx,
      List.enum, List.enumFrom]
  · intro h
    have := congrArg Bucket.days h
    norm_num at this

theorem updateAt_congr {α : Type} (f g : α → α) (i : ℕ) (l : List α)
    (h : ∀ b, f b = g b) : updateAt f i l = updateAt g i l := by
  induction l generalizing i with
  | nil => cases i <;> rfl
  | cons b t ih => cases i <;> simp [updateAt, h, ih]

theorem updateAt_bump_append (idx : ℕ) (M : List Bucket) (mods : List String) :
    updateAt (fun b => { b with
        modules := b.modules ++ mods.filter (fun m =>
          !((((updateAt (fun b => { b with n := b.n + 1 }) idx M)[idx]?).map
            Bucket.modules).getD []).contains m && !(m == "")) })
      idx (updateAt (fun b => { b with n := b.n + 1 }) idx M) =
    updateAt (fun b => { b with
      n := b.n + 1,
      modules := b.modules ++ modulesAppend (some mods) b.modules }) idx M := by
  apply List.ext_getElem?
  intro j
  by_cases hj : j = idx
  · subst hj
    have hbm : (updateAt (fun b => { b with n := b.n + 1 }) j M)[j]? =
        M[j]?.map (fun b => { b with n := b.n + 1 }) := by
      rw [updateAt_getElem?, if_pos rfl]
    rcases hb : M[j]? with _ | b
    · simp [updateAt_getElem?, hb]
    · simp [updateAt_getElem?, hbm, hb, modulesAppend]
  · simp [updateAt_getElem?, hj]

/-- C2, amended: for every sample carrying a lag, **every** bucket's `days`
grows by `lag.mean / pagelet.day`, while exactly one bucket — the classified
one — additionally has its `n` incremented and the sample's not-yet-present,
non-empty module names appended to its module set; every field of every
other bucket is unchanged. -/
theorem timeUnit_all_days_one_n (env : Env) (memo : List Bucket)
    (probe : DeltaProbe) (r : DeltaResults) (lag : Lag)
    (hres : probe.results = some r) (hlag : r.lag = some lag)
    (hlen : memo.length = env.intervals.length)
    (hne : env.intervals ≠ []) :
    ∃ idx, idx < memo.length ∧
      timeUnit env memo probe = some (updateAt
        (fun b => { b with
          n := b.n + 1,
          modules := b.modules ++ modulesAppend r.modules b.modules })
        idx (memo.map (addLag env lag))) := by
  obtain ⟨ps, pres⟩ := probe
  obtain rfl : pres = some r := hres
  obtain ⟨rlag, rmods⟩ := r
  obtain rfl : rlag = some lag := hlag
  have hbind : (some (⟨some lag, rmods⟩ : DeltaResults) : Option DeltaResults).bind
      DeltaResults.lag = some lag := rfl
  have hsplit := timeUnit_fold_split env (some ⟨some lag, rmods⟩) lag hbind
    env.intervals.enum memo none
  have hdays := foldl_updateAt_enum (addLag env lag) env.intervals memo hlen
  have hbound := istep_fold_bound lag env.intervals.length env.intervals.enum
    (fun p hp => mem_enum_fst_lt env.intervals p hp) none (Or.inl rfl)
  have hlenpos : 0 < env.intervals.length := List.length_pos.mpr hne
  have hidxlt : (if jsFalsyIdx (List.foldl (istep lag) none env.intervals.enum) then
      env.intervals.length - 1
    else (List.foldl (istep lag) none env.intervals.enum).getD 0) < memo.length := by
    rcases hbound with hnone | ⟨j, hjlt, hj⟩
    · rw [hnone]
      simp only [jsFalsyIdx, if_true]
      omega
    · rw [hj]
      cases j with
      | zero =>
        simp only [jsFalsyIdx, if_true]
        omega
      | succ j =>
        simp only [jsFalsyIdx, Bool.false_eq_true, if_false, Option.getD_some]
        omega
  rcases rmods with _ | mods
  · refine ⟨_, hidxlt, ?_⟩
    dsimp only [timeUnit, modulesAppend]
    rw [hsplit]
    dsimp only []
    rw [hdays]
    congr 1
    apply updateAt_congr
    intro b
    simp
  · refine ⟨_, hidxlt, ?_⟩
    dsimp only [timeUnit, modulesAppend]
    rw [hsplit]
    dsimp only []
    rw [hdays]
    congr 1
    exact updateAt_bump_append _ (memo.map (addLag env lag)) mods

/-- C2, witness: the amended statement evaluated at the concrete two-interval
configuration, on a sample carrying both a lag and a modules array. -/
theorem timeUnit_all_days_one_n_witness :
    ∃ idx, idx < base2.length ∧
      timeUnit env2 base2 probeLagMods = some (updateAt
        (fun b => { b with
          n := b.n + 1,
          modules := b.modules ++ modulesAppend (some [moduleA]) b.modules })
        idx (base2.map (addLag env2 ⟨30⟩))) :=
  timeUnit_all_days_one_n env2 base2 probeLagMods ⟨some ⟨30⟩, some [moduleA]⟩ ⟨30⟩
    rfl rfl rfl (by simp [env2])

/-- C3, counterexample: a sample whose `results` carry no `lag` does not
leave the day state unchanged — `interval` stays `undefined`, is defaulted to
the last index, and that catch-all bucket's `n` is still incremented. -/
theorem timeUnit_no_lag_still_counts :
    timeUnit env2 base2 probeNoLag =
        some [⟨hourLabel, 0, 0, []⟩, ⟨dayLabel, 0, 1, []⟩] ∧
      timeUnit env2 base2 probeNoLag ≠ some base2 := by
  have h : timeUnit env2 base2 probeNoLag =
      some [⟨hourLabel, 0, 0, []⟩, ⟨dayLabel, 0, 1, []⟩] := by
    norm_num [timeUnit, timeUnitStep, env2, base2, probeNoLag, updateAt, jsFalsyIdx,
      List.enum, List.enumFrom]
  refine ⟨h, ?_⟩
  rw [h]
  intro hc
  have := congrArg (fun o => (o.map (fun l => l.map Bucket.n)).getD []) hc
  simp [base2] at this

/-- C3, amended: a lag-less sample (with `results` present and no `modules`
array) adds nothing to any bucket's `days`, appends no modules, raises no
error and introduces no `NaN`, but it does increment the catch-all (last)
bucket's `n`; a sample whose `results` field is missing entirely makes
`timeUnit` throw (the read of `probe.results.modules` — modelled by `none`);
and a ping sample whose own `results` object is empty produces an aggregate
point with an empty `values` object (no `NaN` propagation). -/
theorem timeUnit_missing_lag_behavior (env : Env) (memo : List Bucket)
    (probe : DeltaProbe) (r : DeltaResults)
    (hres : probe.results = some r) (hlag : r.lag = none) (hmods : r.modules = none)
    (probe2 : DeltaProbe) (hres2 : probe2.results = none)
    (n i : ℕ) (pdata : List PingProbe) (pp : PingProbe)
    (hp : pdata[i]? = some pp) (hpr : pp.results = []) :
    timeUnit env memo probe =
        some (updateAt bumpN (env.intervals.length - 1) memo) ∧
      timeUnit env memo probe2 = none ∧
      (movingAverage n pdata)[i]? = some ⟨pp.start, []⟩ := by
  refine ⟨?_, ?_, ?_⟩
  · have hbind : probe.results.bind DeltaResults.lag = none := by
      rw [hres]; simpa using hlag
    have hconst : List.foldl (timeUnitStep env probe.results) (memo, none)
        env.intervals.enum = (memo, none) := by
      apply foldl_congr_const
      intro st p
      simp [timeUnitStep, hbind]
    unfold timeUnit
    rw [hconst]
    simp [jsFalsyIdx, hres, hmods]
    rfl
  · obtain ⟨p2s, p2res⟩ := probe2
    obtain rfl : p2res = none := hres2
    rfl
  · have hval : maValues pdata i pp (if n = 0 then 5 else n) = [] := by
      unfold maValues
      apply foldl_congr_const
      intro vs k
      rw [hpr]
      rfl
    simp only [movingAverage, List.getElem?_map, List.getElem?_enum, hp, Option.map_some']
    rw [hval]

/-- C3, witness: the amended statement at the concrete configuration, with a
lag-less delta sample, a results-less delta sample, and a one-sample ping
sequence with empty results. -/
theorem timeUnit_missing_lag_behavior_witness :
    timeUnit env2 base2 probeNoLag =
        some (updateAt bumpN (env2.intervals.length - 1) base2) ∧
      timeUnit env2 base2 probeNoResults = none ∧
      (movingAverage 3 [⟨77, []⟩])[0]? = some ⟨77, []⟩ :=
  timeUnit_missing_lag_behavior env2 base2 probeNoLag ⟨none, none⟩ rfl rfl rfl
    probeNoResults rfl 3 0 [⟨77, []⟩] ⟨77, []⟩ rfl rfl

theorem modsAt_updateAt (f : Bucket → Bucket) (hf : ∀ b, (f b).modules = b.modules)
    (i j : ℕ) (memo : List Bucket) : modsAt (updateAt f i memo) j = modsAt memo j := by
  unfold modsAt
  rw [updateAt_getElem?]
  by_cases hij : j = i
  · subst hij
    cases memo[j]? <;> simp [hf]
  · simp [hij]

theorem timeUnitStep_mods (env : Env) (res : Option DeltaResults)
    (p : ℕ × String × ℚ) (memo : List Bucket) (iv : Option ℕ) (j : ℕ) :
    modsAt (timeUnitStep env res (memo, iv) p).1 j = modsAt memo j := by
  unfold timeUnitStep
  cases res.bind DeltaResults.lag with
  | none => rfl
  | some lag =>
    simp only []
    split
    · exact modsAt_updateAt
        (fun b => { b with days := b.days + lag.mean / env.day }) (fun b => rfl) p.1 j memo
    · split <;>
        exact modsAt_updateAt
          (fun b => { b with days := b.days + lag.mean / env.day }) (fun b => rfl) p.1 j memo

theorem timeUnit_fold_mods (env : Env) (res : Option DeltaResults)
    (l : List (ℕ × String × ℚ)) :
    ∀ memo iv j,
      modsAt (List.foldl (timeUnitStep env res) (memo, iv) l).1 j = modsAt memo j := by
  induction l with
  | nil => intro memo iv j; rfl
  | cons p t ih =>
    intro memo iv j
    rw [List.foldl_cons]
    exact (ih (timeUnitStep env res (memo, iv) p).1
      (timeUnitStep env res (memo, iv) p).2 j).trans (timeUnitStep_mods env res p memo iv j)

theorem timeUnit_modules_spec (env : Env) (memo : List Bucket) (probe : DeltaProbe)
    (out : List Bucket) (h : timeUnit env memo probe = some out) (j : ℕ) :
    modsAt out j = modsAt memo j ∨
      ∃ old mods, modsAt memo j = some old ∧
        probe.results.bind DeltaResults.modules = some mods ∧
        modsAt out j =
          some (old ++ mods.filter (fun m => !(old.contains m) && !(m == ""))) := by
  obtain ⟨ps, pres⟩ := probe
  rcases pres with _ | r
  · dsimp only [timeUnit] at h
    exact absurd h (by simp)
  · obtain ⟨rlag, rmods⟩ := r
    rcases rmods with _ | mods
    · dsimp only [timeUnit] at h
      obtain rfl := Option.some.inj h
      left
      exact (modsAt_updateAt (fun b => { b with n := b.n + 1 }) (fun b => rfl) _ _ _).trans
        (timeUnit_fold_mods env (some ⟨rlag, none⟩) env.intervals.enum memo none j)
    · dsimp only [timeUnit] at h
      obtain rfl := Option.some.inj h
      have hpres : ∀ i,
          modsAt (updateAt (fun b => { b with n := b.n + 1 })
            (if jsFalsyIdx (List.foldl (timeUnitStep env (some ⟨rlag, some mods⟩))
                (memo, none) env.intervals.enum).2 then env.intervals.length - 1
              else (List.foldl (timeUnitStep env (some ⟨rlag, some mods⟩))
                (memo, none) env.intervals.enum).2.getD 0)
            (List.foldl (timeUnitStep env (some ⟨rlag, some mods⟩))
              (memo, none) env.intervals.enum).1) i = modsAt memo i := by
        intro i
        exact (modsAt_updateAt (fun b => { b with n := b.n + 1 }) (fun b => rfl) _ _ _).trans
          (timeUnit_fold_mods env (some ⟨rlag, some mods⟩) env.intervals.enum memo none i)
      generalize hidx : (if jsFalsyIdx (List.foldl (timeUnitStep env (some ⟨rlag, some mods⟩))
          (memo, none) env.intervals.enum).2 then env.intervals.length - 1
        else (List.foldl (timeUnitStep env (some ⟨rlag, some mods⟩))
          (memo, none) env.intervals.enum).2.getD 0) = idx at hpres h
      generalize hm1 : updateAt (fun b => { b with n := b.n + 1 }) idx
          (List.foldl (timeUnitStep env (some ⟨rlag, some mods⟩))
            (memo, none) env.intervals.enum).1 = memo1 at hpres h
      by_cases hij : j = idx
      · subst hij
        rcases hb : memo1[j]? with _ | b
        · left
          have hj2 := hpres j
          unfold modsAt at hj2 ⊢
          rw [hb] at hj2
          rw [updateAt_getElem?, if_pos rfl, hb]
          exact hj2
        · right
          refine ⟨b.modules, mods, ?_, rfl, ?_⟩
          · have hj2 := hpres j
            unfold modsAt at hj2
            rw [hb] at hj2
            exact hj2.symm
          · unfold modsAt
            rw [updateAt_getElem?, hb]
            simp
      · left
        rw [← hpres j]
        unfold modsAt
        rw [updateAt_getElem?]
        simp [hij]

theorem timeUnit_nodup_step (env : Env) (memo : List Bucket) (probe : DeltaProbe)
    (out : List Bucket) (h : timeUnit env memo probe = some out)
    (hm : ∀ j old, modsAt memo j = some old → old.Nodup)
    (hp : ∀ mods, probe.results.bind DeltaResults.modules = some mods → mods.Nodup) :
    ∀ j old, modsAt out j = some old → old.Nodup := by
  intro j old hout
  rcases timeUnit_modules_spec env memo probe out h j with heq | ⟨o, mods, hmemo, hmods, hnew⟩
  · exact hm j old (heq ▸ hout)
  · rw [hnew] at hout
    obtain rfl := Option.some.inj hout
    refine List.Nodup.append (hm j o hmemo) (List.Nodup.filter _ (hp mods hmods)) ?_
    intro a ha hb
    have hpred := (List.mem_filter.mp hb).2
    have h1 : o.contains a = false := by
      cases hc : o.contains a
      · rfl
      · rw [hc] at hpred
        simp at hpred
    have h2 : o.contains a = true := List.elem_iff.mpr ha
    rw [h1] at h2
    exact Bool.false_ne_true h2

theorem timeUnit_fold_modules_nodup (env : Env) (data : List DeltaProbe) :
    ∀ memo out : List Bucket,
      (∀ j old, modsAt memo j = some old → old.Nodup) →
      (∀ p ∈ data, ∀ mods, p.results.bind DeltaResults.modules = some mods → mods.Nodup) →
      data.foldlM (fun m p => timeUnit env m p) memo = some out →
      ∀ j old, modsAt out j = some old → old.Nodup := by
  induction data with
  | nil =>
    intro memo out hm _ hf
    obtain rfl := Option.some.inj hf
    exact hm
  | cons p t ih =>
    intro memo out hm hd hf
    rw [List.foldlM_cons] at hf
    rcases hstep : timeUnit env memo p with _ | m1
    · rw [hstep] at hf
      exact absurd hf (by simp [Option.bind])
    · rw [hstep] at hf
      exact ih m1 out
        (timeUnit_nodup_step env memo p m1 hstep hm
          (fun mods hmods => hd p (List.mem_cons_self p t) mods hmods))
        (fun q hq mods hmods => hd q (List.mem_cons_of_mem p hq) mods hmods) hf

/-- C8, counterexample: appending the same module name twice **within one
sample's `modules` list** leaves two occurrences, not one.  The membership
test `!~memo[interval].modules.indexOf(module)` is evaluated against the
bucket's module set as it was before the sample, which does not yet contain
the name, so both copies pass and both are pushed. -/
theorem timeUnit_duplicate_within_sample :
    timeUnit env2 base2 probeDupModules =
        some [⟨hourLabel, 0, 0, []⟩, ⟨dayLabel, 0, 1, [moduleA, moduleA]⟩] ∧
      [moduleA, moduleA].count moduleA = 2 := by
  constructor
  · norm_num [timeUnit, timeUnitStep, env2, base2, probeDupModules, updateAt,
      jsFalsyIdx, moduleA, List.enum, List.enumFrom]
    decide
  · decide

/-- C8, amended: deduplication holds **across** samples — folding any
sequence of delta samples whose individual `modules` lists are themselves
duplicate-free preserves duplicate-freedom of every bucket's module set
(a name already present in a bucket is never appended again).  Within a
single sample's list, however, a repeated name is appended repeatedly (see
the counterexample), so the hypothesis on each sample's own list is
necessary. -/
theorem timeUnit_modules_nodup_preserved (env : Env) (data : List DeltaProbe)
    (memo out : List Bucket)
    (hm : ∀ b ∈ memo, b.modules.Nodup)
    (hd : ∀ p ∈ data, ∀ r ms, p.results = some r → r.modules = some ms → ms.Nodup)
    (hf : data.foldlM (fun m p => timeUnit env m p) memo = some out) :
    ∀ b ∈ out, b.modules.Nodup := by
  intro b hb
  obtain ⟨j, hj⟩ := List.mem_iff_getElem?.mp hb
  refine timeUnit_fold_modules_nodup env data memo out ?_ ?_ hf j b.modules ?_
  · intro j2 old hj2
    unfold modsAt at hj2
    rcases hb2 : memo[j2]? with _ | b2
    · rw [hb2] at hj2
      exact absurd hj2 (by simp)
    · rw [hb2] at hj2
      obtain rfl := Option.some.inj hj2
      exact hm b2 (List.getElem?_mem hb2)
  · intro p hp mods hmods
    rcases hr : p.results with _ | r
    · rw [hr] at hmods
      exact absurd hmods (by simp)
    · rw [hr] at hmods
      exact hd p hp r mods hr hmods
  · unfold modsAt
    rw [hj]
    rfl

/-- C8, witness: the amended statement applied at the concrete configuration,
folding one sample with two distinct module names; the resulting catch-all
bucket's module set is duplicate-free. -/
theorem timeUnit_modules_nodup_preserved_witness :
    (Bucket.mk dayLabel 0 1 [moduleA, moduleB]).modules.Nodup := by
  apply timeUnit_modules_nodup_preserved env2 [probeModsAB] base2
    [⟨hourLabel, 0, 0, []⟩, ⟨dayLabel, 0, 1, [moduleA, moduleB]⟩]
    ?_ ?_ ?_ ⟨dayLabel, 0, 1, [moduleA, moduleB]⟩ ?_
  · intro b hb
    rcases List.mem_cons.mp hb with rfl | hb2
    · exact List.nodup_nil
    · rcases List.mem_cons.mp hb2 with rfl | hb3
      · exact List.nodup_nil
      · exact absurd hb3 (List.not_mem_nil b)
  · intro p hp r ms hpr hrm
    rcases List.mem_cons.mp hp with rfl | hp2
    · rw [show r = (⟨none, some [moduleA, moduleB]⟩ : DeltaResults) from
        Option.some.inj hpr.symm] at hrm
      obtain rfl := Option.some.inj hrm.symm
      decide
    · exact absurd hp2 (List.not_mem_nil p)
  · show List.foldlM (fun m p => timeUnit env2 m p) base2 [probeModsAB] =
      some [⟨hourLabel, 0, 0, []⟩, ⟨dayLabel, 0, 1, [moduleA, moduleB]⟩]
    rw [List.foldlM_cons]
    have h : timeUnit env2 base2 probeModsAB =
        some [⟨hourLabel, 0, 0, []⟩, ⟨dayLabel, 0, 1, [moduleA, moduleB]⟩] := by
      norm_num [timeUnit, timeUnitStep, env2, base2, probeModsAB, updateAt,
        jsFalsyIdx, moduleA, moduleB, List.enum, List.enumFrom]
      decide
    rw [h]
    rfl
  · simp

theorem lookupDay_insertDay_self {γ : Type} (m : List (ℚ × γ)) (d : ℚ) (v : γ) :
    lookupDay (insertDay m d v) d = some v := by
  induction m with
  | nil => simp [insertDay, lookupDay, List.find?]
  | cons p t ih =>
    unfold insertDay
    cases h : p.1 == d
    · simp only [Bool.false_eq_true, if_false]
      unfold lookupDay at ih ⊢
      simp only [List.find?, h]
      exact ih
    · simp only [if_true]
      unfold lookupDay
      simp [List.find?]

theorem lookupDay_insertDay_ne {γ : Type} (m : List (ℚ × γ)) (d d2 : ℚ) (v : γ)
    (h : d ≠ d2) : lookupDay (insertDay m d v) d2 = lookupDay m d2 := by
  have h1 : (d == d2) = false := by simpa using h
  induction m with
  | nil =>
    unfold insertDay lookupDay
    simp [List.find?, h1]
  | cons p t ih =>
    unfold insertDay
    cases hp : p.1 == d
    · simp only [Bool.false_eq_true, if_false]
      unfold lookupDay at ih ⊢
      simp only [List.find?]
      cases hp2 : p.1 == d2
      · exact ih
      · rfl
    · simp only [if_true]
      have hd : p.1 = d := by simpa using hp
      have h2 : (p.1 == d2) = false := by
        rw [hd]
        exact h1
      unfold lookupDay
      simp only [List.find?, h1, h2]

theorem buildMemo_aux {π γ : Type} (cat : γ → π → Option γ) (base : γ)
    (start : π → ℚ) (mid : ℚ → ℚ) (data : List π) :
    ∀ memo m,
      List.foldlM
        (fun memo probe =>
          (cat ((lookupDay memo (mid (start probe))).getD (clone base)) probe).map
            (fun st => insertDay memo (mid (start probe)) st)) memo data = some m →
      ∀ d, lookupDay m d =
        if (data.filter (fun p => mid (start p) == d)).isEmpty then lookupDay memo d
        else (data.filter (fun p => mid (start p) == d)).foldlM cat
          ((lookupDay memo d).getD (clone base)) := by
  induction data with
  | nil =>
    intro memo m h d
    obtain rfl := Option.some.inj h
    rfl
  | cons p rest ih =>
    intro memo m h d
    rw [List.foldlM_cons] at h
    rcases hcat : cat ((lookupDay memo (mid (start p))).getD (clone base)) p with _ | st
    · rw [hcat] at h
      exact absurd h (by simp [Option.bind])
    · rw [hcat] at h
      simp only [Option.map_some', Option.some_bind] at h
      have hrec := ih (insertDay memo (mid (start p)) st) m h d
      cases hdp : mid (start p) == d with
      | false =>
        have hne : mid (start p) ≠ d := by simpa using hdp
        rw [List.filter_cons_of_neg (by simpa using hdp)]
        rw [lookupDay_insertDay_ne memo (mid (start p)) d st hne] at hrec
        exact hrec
      | true =>
        have heq : mid (start p) = d := by simpa using hdp
        subst heq
        rw [List.filter_cons_of_pos (by simp)]
        rw [lookupDay_insertDay_self memo (mid (start p)) st] at hrec
        have hfold : (p :: rest.filter (fun q => mid (start q) == mid (start p))).foldlM cat
            ((lookupDay memo (mid (start p))).getD (clone base)) =
            (rest.filter (fun q => mid (start q) == mid (start p))).foldlM cat st := by
          rw [List.foldlM_cons, hcat]
          rfl
        rw [hfold]
        rcases hempty : rest.filter (fun q => mid (start q) == mid (start p)) with _ | ⟨q, qs⟩
        · rw [hempty] at hrec
          simpa using hrec
        · rw [hempty] at hrec
          simpa using hrec

/-- C9: confirmed.  Inside `groupPerDay`, every day's accumulator state is a
function of that day's samples alone: when the `reduce` over the whole sample
sequence succeeds, the state stored under day key `d` equals the fold of the
categorizer over exactly the samples whose local midnight is `d`, seeded from
a fresh `clone` of the supplied template (so the template value itself is
never consumed destructively, and no state flows between distinct day keys or
between calls). -/
theorem groupPerDay_day_states_independent {π γ : Type} (cat : γ → π → Option γ)
    (base : γ) (start : π → ℚ) (mid : ℚ → ℚ) (data : List π) (m : List (ℚ × γ))
    (h : buildMemo cat base start mid data = some m) (d : ℚ) :
    lookupDay m d =
      if (data.filter (fun p => mid (start p) == d)).isEmpty then none
      else (data.filter (fun p => mid (start p) == d)).foldlM cat (clone base) :=
  buildMemo_aux cat base start mid data [] m h d

/-- C9, witness: the theorem applied to a two-sample run whose samples share
one day key. -/
theorem groupPerDay_day_states_independent_witness :
    lookupDay [((0 : ℚ), (7 : ℕ))] 0 =
      if (([(1 : ℚ), 2]).filter (fun p => (fun _ => (0 : ℚ)) (id p) == (0 : ℚ))).isEmpty
        then none
      else (([(1 : ℚ), 2]).filter (fun p => (fun _ => (0 : ℚ)) (id p) == (0 : ℚ))).foldlM
        (fun (s : ℕ) (_ : ℚ) => some s) (clone 7) :=
  groupPerDay_day_states_independent (fun s _ => some s) 7 id (fun _ => 0) [1, 2]
    [(0, 7)] (by norm_num [buildMemo, lookupDay, insertDay, clone, List.foldlM, List.find?]) 0

/-- C7, amended: when a successful publish sample arrives and the derived
`done` does not exceed the success slot's recorded (positive) `total`, the
slot's percentage becomes `Math.round(100 · (n+1) / total)`; and for a fixed
positive `total` the function `n ↦ Math.round(100 · n / total)` is
non-negative and monotonically non-decreasing in `n` (the `[0, 100]` upper
bound of the original claim fails — see the counterexample). -/
theorem percentage_step_monotone_nonneg (env : Env) (s0 s1 : Slot) (rest : List Slot)
    (probe : PublishProbe) (res : PublishResults)
    (hres : probe.results = some res) (hpub : res.published = true)
    (htot : 0 < s1.total)
    (hdone : ⌊(if env.today < probe.start then probe.start - env.today
        else intervalsDayVal env) / env.publishInterval⌋ ≤ s1.total) :
    percentage env (s0 :: s1 :: rest) probe =
        some ({ s0 with lower := pctOf (s1.n + 1) s1.total } ::
          { s1 with n := s1.n + 1, percentage := pctOf (s1.n + 1) s1.total } :: rest) ∧
      ∀ n m : ℕ, n ≤ m →
        ∃ v w, pctOf n s1.total = some v ∧ pctOf m s1.total = some w ∧
          0 ≤ v ∧ v ≤ w := by
  constructor
  · obtain ⟨pstart, pres⟩ := probe
    obtain rfl : pres = some res := hres
    obtain ⟨pub⟩ := res
    obtain rfl : pub = true := hpub
    dsimp only [percentage] at hdone ⊢
    simp only [eq_self_iff_true, if_true]
    simp only [if_neg (not_lt.mpr hdone)]
  · intro n m hnm
    have ht0 : s1.total ≠ 0 := ne_of_gt htot
    have h1 : (0 : ℚ) < (s1.total : ℚ) := by exact_mod_cast htot
    refine ⟨jsRound ((n : ℚ) / (s1.total : ℚ) * 100),
      jsRound ((m : ℚ) / (s1.total : ℚ) * 100),
      by simp [pctOf, ht0], by simp [pctOf, ht0], ?_, ?_⟩
    · unfold jsRound
      apply Int.le_floor.mpr
      have hn : (0 : ℚ) ≤ (n : ℚ) / (s1.total : ℚ) * 100 := by positivity
      push_cast
      linarith
    · unfold jsRound
      apply Int.floor_le_floor
      have hdiv : (n : ℚ) / (s1.total : ℚ) ≤ (m : ℚ) / (s1.total : ℚ) :=
        (div_le_div_right h1).mpr (by exact_mod_cast hnm)
      linarith

/-- C7, witness for the amended theorem: second success sample of the `env7`
day, hitting `n + 1 = 2 > total = 1` (hence a percentage of `200`). -/
theorem percentage_step_monotone_nonneg_witness :
    percentage env7 [⟨failureLabel, some 0, 1, 0, some 100⟩,
        ⟨successLabel, some 100, 1, 1, some 0⟩] probePub =
        some (⟨failureLabel, some 0, 1, 0, pctOf 2 1⟩ ::
          ⟨successLabel, pctOf 2 1, 1, 2, some 0⟩ :: []) ∧
      ∀ n m : ℕ, n ≤ m →
        ∃ v w, pctOf n 1 = some v ∧ pctOf m 1 = some w ∧ 0 ≤ v ∧ v ≤ w :=
  percentage_step_monotone_nonneg env7 ⟨failureLabel, some 0, 1, 0, some 100⟩
    ⟨successLabel, some 100, 1, 1, some 0⟩ [] probePub ⟨true⟩ rfl rfl
    (by norm_num)
    (by norm_num [env7, probePub, intervalsDayVal])

theorem getVal_setVal_self (vs : Values) (key : String) (v : JsNum) :
    getVal (setVal vs key v) key = some v := by
  induction vs with
  | nil => simp [setVal, getVal, List.find?]
  | cons p t ih =>
    unfold setVal
    cases hp : p.1 == key
    · simp only [Bool.false_eq_true, if_false]
      unfold getVal at ih ⊢
      simp only [List.find?, hp]
      exact ih
    · simp only [if_true]
      unfold getVal
      simp [List.find?]

theorem getVal_setVal_ne (vs : Values) (key key2 : String) (v : JsNum)
    (h : key ≠ key2) : getVal (setVal vs key v) key2 = getVal vs key2 := by
  have h1 : (key == key2) = false := by simpa using h
  induction vs with
  | nil =>
    unfold setVal getVal
    simp [List.find?, h1]
  | cons p t ih =>
    unfold setVal
    cases hp : p.1 == key
    · simp only [Bool.false_eq_true, if_false]
      unfold getVal at ih ⊢
      simp only [List.find?]
      cases hp2 : p.1 == key2
      · exact ih
      · rfl
    · simp only [if_true]
      have hd : p.1 = key := by simpa using hp
      have h2 : (p.1 == key2) = false := by
        rw [hd]
        exact h1
      unfold getVal
      simp only [List.find?, h1, h2]

theorem maStep_fold_not_mem (data : List PingProbe) (probe : PingProbe) (n : ℕ)
    (k : ℤ) (ps : List (String × ℚ)) (key : String) :
    ∀ vs : Values, key ∉ ps.map Prod.fst →
      getVal (ps.foldl (fun vs p => maStep data probe n k vs p.1) vs) key =
        getVal vs key := by
  induction ps with
  | nil => intro vs _; rfl
  | cons p t ih =>
    intro vs hkey
    simp only [List.map_cons, List.mem_cons, not_or] at hkey
    rw [List.foldl_cons, ih _ hkey.2]
    unfold maStep
    exact getVal_setVal_ne _ _ _ _ (Ne.symm hkey.1)

theorem maStep_fold_once (data : List PingProbe) (probe : PingProbe) (n : ℕ)
    (k : ℤ) (ps : List (String × ℚ)) (key : String) :
    ∀ vs : Values, (ps.map Prod.fst).Nodup → key ∈ ps.map Prod.fst →
      getVal (ps.foldl (fun vs p => maStep data probe n k vs p.1) vs) key =
        some (maKeyStep data probe n k key (getVal vs key)) := by
  induction ps with
  | nil =>
    intro vs _ h
    simp at h
  | cons p t ih =>
    intro vs hnd hmem
    simp only [List.map_cons, List.nodup_cons] at hnd
    rw [List.foldl_cons]
    rcases List.mem_cons.mp hmem with h | h
    · have hnot : key ∉ t.map Prod.fst := by
        rw [h]
        exact hnd.1
      rw [maStep_fold_not_mem data probe n k t key _ hnot]
      unfold maStep
      rw [← h]
      exact getVal_setVal_self _ _ _
    · have hne : key ≠ p.1 := fun hc => hnd.1 (hc ▸ h)
      rw [ih _ hnd.2 h]
      unfold maStep
      rw [getVal_setVal_ne _ _ _ _ (Ne.symm hne)]

theorem maValues_fold_pos (data : List PingProbe) (probe : PingProbe) (n : ℕ)
    (key : String) (f : ℕ → ℚ) (hn : 0 < n)
    (hf : ∀ j, j < data.length → getMetric (resultsAt data j) key = some (f j) ∧ 0 < f j)
    (hnd : (probe.results.map Prod.fst).Nodup)
    (hmem : key ∈ probe.results.map Prod.fst) :
    ∀ ks : List ℤ, (∀ k ∈ ks, clampIdx k < data.length) →
      ∀ (vs : Values) (q : ℚ), getVal vs key = some (some q) → 0 < q →
        getVal (ks.foldl (fun vs k => probe.results.foldl
            (fun vs p => maStep data probe n k vs p.1) vs) vs) key =
          some (some (q + ((ks.map (fun k => f (clampIdx k) / (n : ℚ))).sum))) ∧
        0 < q + ((ks.map (fun k => f (clampIdx k) / (n : ℚ))).sum) := by
  intro ks
  induction ks with
  | nil =>
    intro _ vs q hq hqpos
    simp only [List.foldl_nil, List.map_nil, List.sum_nil, add_zero]
    exact ⟨hq, hqpos⟩
  | cons k ks ih =>
    intro hks vs q hq hqpos
    have hclamp : clampIdx k < data.length := hks k (List.mem_cons_self k ks)
    have htrm := hf (clampIdx k) hclamp
    have hstep : getVal (probe.results.foldl
        (fun vs p => maStep data probe n k vs p.1) vs) key =
        some (some (q + f (clampIdx k) / (n : ℚ))) := by
      rw [maStep_fold_once data probe n k probe.results key vs hnd hmem, hq]
      unfold maKeyStep
      have htr : jsTruthy (some q) = true := by
        simp [jsTruthy]
        exact ne_of_gt hqpos
      simp only [htr, if_true, htrm.1]
      rfl
    have hqpos2 : 0 < q + f (clampIdx k) / (n : ℚ) := by
      have hn2 : (0 : ℚ) < (n : ℚ) := by exact_mod_cast hn
      have := div_pos htrm.2 hn2
      linarith
    have hrec := ih (fun k2 hk2 => hks k2 (List.mem_cons_of_mem k hk2)) _ _ hstep hqpos2
    rw [List.foldl_cons]
    constructor
    · rw [hrec.1]
      simp only [List.map_cons, List.sum_cons]
      rw [add_assoc]
    · have := hrec.2
      simp only [List.map_cons, List.sum_cons]
      linarith

/-- C5, counterexample: the spec's claimed window is wrong.  With window `2`
at index `1` of the scenario sequence (`latency = [10, 20, 30]`), the claim
predicts the mean over indices `-1, 0` clamped to `0, 0`, i.e.
`(10 + 10) / 2 = 10`; the code produces `15`, because the `||`-initialisation
seeds the accumulator with the **current** sample's own value
(`20 / 2 + 10 / 2 = 15`). -/
theorem movingAverage_window_counterexample :
    (movingAverage 2 data5)[1]? = some ⟨2000, [(latencyKey, some 15)]⟩ ∧
      ¬ (15 : ℚ) = (10 + 10) / 2 := by
  constructor
  · norm_num [movingAverage, data5, maValues, kList, maStep, maKeyStep, getVal, setVal,
      getMetric, resultsAt, jsDiv, jsAdd, jsTruthy, clampIdx, List.enum, List.enumFrom,
      List.range_succ, List.range_zero]
  · norm_num

/-- C5, amended: for window size `n ≥ 2` and a metric key present with a
positive value in every sample, the `i`-th output value is
`r i / n + Σ_{k = i-n+1}^{i-1} r (max k 0) / n` — the mean over the current
sample **itself** together with the `n - 1` samples immediately preceding it
(indices clamped at `0`) — not the mean over indices `i-n … i-1`.  Positivity
keeps the running sum truthy, so the `||` re-seeding fires only on the first
iteration; `n ≥ 2` makes the loop run at least once (with `n = 1` no keys are
emitted at all). -/
theorem movingAverage_window_formula (data : List PingProbe) (n i : ℕ)
    (key : String) (f : ℕ → ℚ) (hn : 2 ≤ n) (hi : i < data.length)
    (hf : ∀ j, j < data.length →
      getMetric (resultsAt data j) key = some (f j) ∧ 0 < f j)
    (hnd : ((resultsAt data i).map Prod.fst).Nodup) :
    ∃ pt, (movingAverage n data)[i]? = some pt ∧
      getVal pt.values key =
        some (some (f i / (n : ℚ) +
          ((kList i n).map (fun k => f (clampIdx k) / (n : ℚ))).sum)) := by
  obtain ⟨probe, hprobe⟩ : ∃ p, data[i]? = some p :=
    ⟨data[i], List.getElem?_eq_getElem hi⟩
  have hres : resultsAt data i = probe.results := by
    unfold resultsAt
    rw [hprobe]
    rfl
  have hn0 : ¬ n = 0 := by omega
  have hpt : (movingAverage n data)[i]? =
      some ⟨probe.start, maValues data i probe n⟩ := by
    simp only [movingAverage, List.getElem?_map, List.getElem?_enum, hprobe,
      Option.map_some', if_neg hn0]
  refine ⟨⟨probe.start, maValues data i probe n⟩, hpt, ?_⟩
  have hfi := hf i hi
  rw [hres] at hfi
  have hmem : key ∈ probe.results.map Prod.fst := by
    rcases hfind : probe.results.find? (fun p => p.1 == key) with _ | pr
    · unfold getMetric at hfi
      rw [hfind] at hfi
      exact absurd hfi.1 (by simp)
    · have h1 := List.find?_some hfind
      have h2 := List.mem_of_find?_eq_some hfind
      have h3 : pr.1 = key := by simpa using h1
      exact h3 ▸ List.mem_map_of_mem Prod.fst h2
  have hnd2 : (probe.results.map Prod.fst).Nodup := hres ▸ hnd
  have hks : ∀ k ∈ kList i n, clampIdx k < data.length := by
    intro k hk2
    obtain ⟨j, hj, rfl⟩ := List.mem_map.mp hk2
    have hj2 := List.mem_range.mp hj
    unfold clampIdx
    split
    · omega
    · omega
  have hkne : kList i n ≠ [] := by
    apply List.ne_nil_of_length_pos
    simp only [kList, List.length_map, List.length_range]
    omega
  obtain ⟨kh, kt, hk⟩ := List.exists_cons_of_ne_nil hkne
  have hclamph : clampIdx kh < data.length := hks kh (by rw [hk]; exact List.mem_cons_self kh kt)
  have hnq : (0 : ℚ) < (n : ℚ) := by
    have : 0 < n := by omega
    exact_mod_cast this
  have hstep1 : getVal (probe.results.foldl
      (fun vs p => maStep data probe n kh vs p.1) []) key =
      some (some (f i / (n : ℚ) + f (clampIdx kh) / (n : ℚ))) := by
    rw [maStep_fold_once data probe n kh probe.results key [] hnd2 hmem]
    unfold maKeyStep
    have hget : getVal [] key = none := rfl
    rw [hget]
    simp only [hfi.1, (hf (clampIdx kh) hclamph).1]
    rfl
  have hpos1 : 0 < f i / (n : ℚ) + f (clampIdx kh) / (n : ℚ) := by
    have hp1 := div_pos hfi.2 hnq
    have hp2 := div_pos (hf (clampIdx kh) hclamph).2 hnq
    linarith
  have hrest := maValues_fold_pos data probe n key f (by omega) hf hnd2 hmem kt
    (fun k2 hk2 => hks k2 (by rw [hk]; exact List.mem_cons_of_mem kh hk2))
    _ _ hstep1 hpos1
  unfold maValues
  rw [hk, List.foldl_cons]
  rw [hrest.1]
  simp only [List.map_cons, List.sum_cons]
  rw [add_assoc]

/-- C5, witness: the amended formula evaluated on the scenario sequence at
index `1` with window `2`. -/
theorem movingAverage_window_formula_witness :
    ∃ pt, (movingAverage 2 data5)[1]? = some pt ∧
      getVal pt.values latencyKey =
        some (some (f5 1 / (2 : ℚ) +
          ((kList 1 2).map (fun k => f5 (clampIdx k) / (2 : ℚ))).sum)) :=
  movingAverage_window_formula data5 2 1 latencyKey f5 (by norm_num)
    (by norm_num [data5])
    (by
      intro j hj
      norm_num [data5] at hj
      interval_cases j <;>
        norm_num [data5, f5, resultsAt, getMetric, latencyKey, List.find?])
    (by norm_num [data5, resultsAt, latencyKey])

end NpmProbe
